import Mathlib

/-!
Verification of the retrieval-augmented query pipeline of the
Azure MySQL + AI Search sample notebook
(`AzureMySQL_AISearch_IntegratedVectorization.ipynb`).

The notebook itself only assembles configuration for external managed
services (MySQL, Azure AI Search indexer/skillset, Azure OpenAI); the
pipeline semantics (chunking, embedding, index projection,
synchronization, answer generation) live in those services and are
specified abstractly in the repository's design document.  Where the
deciding code is not present in the repository, the corresponding
definition below is modelled from the spec and says so in its doc
comment; values taken verbatim from the notebook (the embedding
dimensionality, the field layout of the search index, the `TextConcat`
derivation, the soft-delete marker) are embedded directly.
-/

/-- `EMBEDDING_LENGTH = 1536` from the notebook (cell 5), also used as
`vector_search_dimensions` of the index's `vector` field (cell 29). -/
def EMBEDDING_LENGTH : Nat := 1536

/-- A row of the `foodreview` table (cell 12 of the notebook):
integer primary key `Id`, text/numeric review fields, the derived
`TextConcat` column, `Created`/`LastUpdated` timestamps (modelled as
naturals), and the integer soft-delete flag `Deleted` defaulting to 0.
`LastUpdated` is the high-water-mark change marker
(`server_change_detection_column_name`). -/
structure SourceRecord where
  id : Nat
  productId : String
  userId : String
  profileName : String
  helpfulnessNumerator : Int
  helpfulnessDenominator : Int
  score : Int
  time : Int
  summary : String
  text : String
  textConcat : String
  created : Nat
  lastUpdated : Nat
  deleted : Nat
deriving Repr, DecidableEq

/-- The soft-delete marker value: `server_soft_delete_marker_value = "1"`
(cell 12). -/
def softDeleteMarker : Nat := 1

/-- The `TextConcat` derivation of the Ingestion Loader
(cell 17 of the notebook):
`f"Summary: {row['Summary']} | Review: {row['Text']}"`. -/
def textConcatOf (summary text : String) : String :=
  "Summary: " ++ summary ++ " | Review: " ++ text

/-- A raw CSV row as read from `Reviews_small.csv` (cell 15): the eleven
columns that the bulk `INSERT` of cell 19 supplies values for, before
the `TextConcat` column is derived. -/
structure RawRow where
  id : Nat
  productId : String
  userId : String
  profileName : String
  helpfulnessNumerator : Int
  helpfulnessDenominator : Int
  score : Int
  time : Int
  summary : String
  text : String
deriving Repr, DecidableEq

/-- The Ingestion Loader: builds a `foodreview` row from a raw CSV row.
The `TextConcat` column is set exactly as in cell 17 of the notebook;
`Created` and `LastUpdated` take the insertion time (the table's
`DEFAULT CURRENT_TIMESTAMP`), and `Deleted` its default 0 (cell 12). -/
def loadRow (row : RawRow) (now : Nat) : SourceRecord :=
  { id := row.id
    productId := row.productId
    userId := row.userId
    profileName := row.profileName
    helpfulnessNumerator := row.helpfulnessNumerator
    helpfulnessDenominator := row.helpfulnessDenominator
    score := row.score
    time := row.time
    summary := row.summary
    text := row.text
    textConcat := textConcatOf row.summary row.text
    created := now
    lastUpdated := now
    deleted := 0 }

/-- Modelled from the spec: a mutation of a source record in the Record
Store.  The repository's own code never updates rows; the spec's data
model (section 3) requires the identifier to be immutable and the
last-modified timestamp to be set by the store on every mutation
(`LastUpdated ... ON UPDATE CURRENT_TIMESTAMP`, cell 12).  `f` rewrites
the mutable fields; the store keeps the primary key and stamps
`LastUpdated` with the update time `now`. -/
def updateRecord (r : SourceRecord) (f : SourceRecord → SourceRecord) (now : Nat) :
    SourceRecord :=
  { f r with id := r.id, created := r.created, lastUpdated := now }

/-! ## Chunker

Modelled from the spec (section 4.1): the notebook delegates chunking to
the Azure AI Search `SplitSkill` (cell 31, `maximum_page_length=300`,
`page_overlap_length=20`); the splitting algorithm itself is not in the
repository.  The spec's contract: split `text` into segments no longer
than `maxLength`, consecutive segments sharing an overlap of exactly
`overlap` units; a text of length at most `maxLength` yields the single
segment `[text]`; `overlap ≥ maxLength` is an `InvalidParameter` error. -/

/-- Error raised by the Chunker on invalid parameters (spec 4.1). -/
inductive ChunkError where
  | InvalidParameter
deriving Repr, DecidableEq

/-- Modelled from the spec: the splitting loop of the Chunker, on lists
of characters, with explicit fuel (the fuel is always instantiated with
the text length, which bounds the number of emitted segments).  While
more than `L` characters remain, emit the first `L` characters and
advance by `L - ov` characters, so consecutive segments share exactly
`ov` characters; the final segment is whatever remains. -/
def chunksGo (L ov : Nat) : Nat → List Char → List (List Char)
  | 0, t => [t]
  | fuel + 1, t =>
    if L < t.length then t.take L :: chunksGo L ov fuel (t.drop (L - ov))
    else [t]

/-- Modelled from the spec: `chunk(text, maxLength, overlap)` (spec 4.1).
Fails with `InvalidParameter` when `overlap ≥ maxLength`; otherwise
splits the text into overlapping segments. -/
def chunk (t : String) (L ov : Nat) : Except ChunkError (List String) :=
  if L ≤ ov then .error .InvalidParameter
  else .ok ((chunksGo L ov t.toList.length t.toList).map String.mk)

/-- Joining chunks back (spec section 8): keep the first segment whole
and strip the leading `ov`-character overlap from every later segment,
then concatenate, at the level of character lists. -/
def joinTail (ov : Nat) (cs : List (List Char)) : List Char :=
  (cs.map (List.drop ov)).flatten

/-- Joining a chunk sequence back into the original text: the first
chunk whole, every later chunk with its leading overlap stripped. -/
def joinChunks (ov : Nat) : List String → String
  | [] => ""
  | c :: cs => String.mk (c.toList ++ joinTail ov (cs.map String.toList))

theorem joinTail_chunksGo (L ov : Nat) (hov : ov < L) :
    ∀ (fuel : Nat) (t : List Char), t.length ≤ fuel →
      joinTail ov (chunksGo L ov fuel t) = t.drop ov := by
  intro fuel
  induction fuel with
  | zero =>
    intro t ht
    have : t = [] := List.eq_nil_of_length_eq_zero (Nat.le_zero.mp ht)
    subst this
    simp [chunksGo, joinTail]
  | succ n ih =>
    intro t ht
    by_cases hL : L < t.length
    · have hstep : 1 ≤ L - ov := Nat.le_sub_of_add_le (by omega)
      have hlen : (t.drop (L - ov)).length ≤ n := by
        rw [List.length_drop]; omega
      have hrec := ih (t.drop (L - ov)) hlen
      simp only [chunksGo, if_pos hL, joinTail, List.map_cons, List.flatten_cons]
      simp only [joinTail] at hrec
      rw [hrec]
      rw [List.drop_take, List.drop_drop]
      have hsum : L - ov + ov = L := Nat.sub_add_cancel (Nat.le_of_lt hov)
      rw [hsum]
      have hsum2 : ov + (L - ov) = L := by omega
      calc (t.drop ov).take (L - ov) ++ t.drop L
          = (t.drop ov).take (L - ov) ++ (t.drop ov).drop (L - ov) := by
            rw [List.drop_drop, hsum2]
        _ = t.drop ov := List.take_append_drop _ _
    · simp only [chunksGo, if_neg hL, joinTail, List.map_cons, List.map_nil,
        List.flatten_cons, List.flatten_nil, List.append_nil]

/-- Reconstruction at the list level: joining the chunk list of `t`
(first chunk whole, overlap stripped from the rest) returns `t`. -/
theorem chunksGo_reconstruct (L ov : Nat) (hov : ov < L) (fuel : Nat)
    (t : List Char) (ht : t.length ≤ fuel) :
    (match chunksGo L ov fuel t with
      | [] => ([] : List Char)
      | c :: cs => c ++ joinTail ov cs) = t := by
  cases fuel with
  | zero =>
    have : t = [] := List.eq_nil_of_length_eq_zero (Nat.le_zero.mp ht)
    subst this
    simp [chunksGo, joinTail]
  | succ n =>
    by_cases hL : L < t.length
    · have hlen : (t.drop (L - ov)).length ≤ n := by
        rw [List.length_drop]; omega
      simp only [chunksGo, if_pos hL]
      have hrec := joinTail_chunksGo L ov hov n (t.drop (L - ov)) hlen
      rw [hrec, List.drop_drop]
      have : L - ov + ov = L := Nat.sub_add_cancel (Nat.le_of_lt hov)
      rw [this, List.take_append_drop]
    · simp [chunksGo, if_neg hL, joinTail]

theorem chunksGo_ne_nil (L ov fuel : Nat) (t : List Char) :
    chunksGo L ov fuel t ≠ [] := by
  cases fuel with
  | zero => simp [chunksGo]
  | succ n =>
    by_cases hL : L < t.length
    · simp [chunksGo, if_pos hL]
    · simp [chunksGo, if_neg hL]

/-- C2: for every text `T` with `len(T) > maxLength` (and valid
parameters `overlap < maxLength`, so that `chunk` succeeds), the chunk
operation returns a sequence of segments such that concatenating the
segments in order, stripping the fixed overlap window from the start of
every segment except the first, reconstructs `T` exactly. -/
theorem chunk_roundTrip (T : String) (L ov : Nat) (hov : ov < L)
    (hlen : L < T.length) :
    ∃ cs, chunk T L ov = .ok cs ∧ joinChunks ov cs = T := by
  have hnle : ¬ L ≤ ov := by omega
  refine ⟨(chunksGo L ov T.toList.length T.toList).map String.mk, ?_, ?_⟩
  · simp [chunk, if_neg hnle]
  · obtain ⟨c, rest, hsplit⟩ :
        ∃ c rest, chunksGo L ov T.toList.length T.toList = c :: rest := by
      cases hcs : chunksGo L ov T.toList.length T.toList with
      | nil => exact absurd hcs (chunksGo_ne_nil L ov _ _)
      | cons c rest => exact ⟨c, rest, rfl⟩
    have hrec := chunksGo_reconstruct L ov hov T.toList.length T.toList le_rfl
    rw [hsplit] at hrec
    simp only at hrec
    rw [hsplit]
    simp only [List.map_cons, joinChunks]
    have htl : ((rest.map String.mk).map String.toList) = rest := by
      rw [List.map_map]
      have : (String.toList ∘ String.mk) = id := rfl
      rw [this, List.map_id]
    rw [htl]
    have hc : (String.mk c).toList = c := rfl
    rw [hc, hrec]
    rfl

/-- C6: `chunk(T, L, overlap)` fails with `InvalidParameter` exactly
when `overlap ≥ L`, and succeeds, producing a chunk sequence, whenever
`overlap < L`. -/
theorem chunk_invalid_parameter (T : String) (L ov : Nat) :
    (chunk T L ov = .error .InvalidParameter ↔ L ≤ ov) ∧
    (ov < L → ∃ cs, chunk T L ov = .ok cs) := by
  constructor
  · constructor
    · intro h
      by_contra hnle
      simp [chunk, if_neg hnle] at h
    · intro h
      simp [chunk, if_pos h]
  · intro h
    have hnle : ¬ L ≤ ov := by omega
    exact ⟨(chunksGo L ov T.toList.length T.toList).map String.mk,
      by unfold chunk; rw [if_neg hnle]⟩

/-! ## Index Projector and the Search Index

The search index's field layout is taken from the notebook (cell 29):
each document stores the chunk key `Id`, the chunk text, its embedding
vector, and denormalized parent fields `parent_id`, `parent_product_id`,
`parent_text`, `parent_summary`, `parent_score` (populated by the index
projection of cell 31).  The embedding scalar type is modelled as `ℚ`;
only the vector's dimensionality matters to the claims. -/

/-- A document of the search index (field layout from cell 29 of the
notebook, values mapped by the index projection of cell 31). -/
structure ChunkDocument where
  id : String
  chunk : String
  vector : List ℚ
  parent_id : Nat
  parent_product_id : String
  parent_text : String
  parent_summary : String
  parent_score : Int
deriving Repr, DecidableEq

/-- Modelled from the spec (section 4.3): the stable chunk-document
identifier, a deterministic function of the parent identifier and the
chunk ordinal only. -/
def chunkDocId (parentId : Nat) (ordinal : Nat) : String :=
  toString parentId ++ "_" ++ toString ordinal

/-- Modelled from the spec (section 4.3) and the notebook's
`index_projections` mappings (cell 31): fan one source record out into
one `ChunkDocument` per chunk, pairing the i-th chunk with the i-th
embedding, carrying the parent identifier and the denormalized parent
fields (`ProductId`, `Text`, `Summary`, `Score`). -/
def project (r : SourceRecord) (chunks : List String) (embeddings : List (List ℚ)) :
    List ChunkDocument :=
  (List.zip chunks embeddings).enum.map fun p =>
    { id := chunkDocId r.id p.1
      chunk := p.2.1
      vector := p.2.2
      parent_id := r.id
      parent_product_id := r.productId
      parent_text := r.text
      parent_summary := r.summary
      parent_score := r.score }

/-- C3: the `project` operation is idempotent in its produced
identifiers: the identifier sequence is `chunkDocId r.id 0, 1, ...`, a
deterministic function of the parent identifier and the chunk ordinal
only, so any two runs of `project` on the same parent with the same
number of chunks (in particular two runs on an unchanged record) yield
identical identifier lists. -/
theorem project_idempotent_ids (r : SourceRecord) (chunks : List String)
    (embeddings : List (List ℚ)) (hlen : chunks.length = embeddings.length) :
    ((project r chunks embeddings).map (fun d => d.id)
        = (List.range chunks.length).map (chunkDocId r.id)) ∧
    (∀ chunks2 embeddings2, chunks2.length = embeddings2.length →
      chunks2.length = chunks.length →
      (project r chunks embeddings).map (fun d => d.id)
          = (project r chunks2 embeddings2).map (fun d => d.id)) := by
  have key : ∀ (cs : List String) (es : List (List ℚ)), cs.length = es.length →
      (project r cs es).map (fun d => d.id)
        = (List.range cs.length).map (chunkDocId r.id) := by
    intro cs es h
    simp only [project, List.map_map, List.enum_eq_zip_range]
    have hzlen : (cs.zip es).length = cs.length := by
      rw [List.length_zip, h, Nat.min_self]
    rw [← hzlen]
    have : ((List.range (cs.zip es).length).zip (cs.zip es)).map
          ((fun d => d.id) ∘ fun p =>
            ({ id := chunkDocId r.id p.1, chunk := p.2.1, vector := p.2.2,
               parent_id := r.id, parent_product_id := r.productId,
               parent_text := r.text, parent_summary := r.summary,
               parent_score := r.score } : ChunkDocument))
        = ((List.range (cs.zip es).length).zip (cs.zip es)).map
            (fun p => chunkDocId r.id p.1) := by
      apply List.map_congr_left
      intro p _
      rfl
    rw [this]
    have hcomp : (fun p : ℕ × (String × List ℚ) => chunkDocId r.id p.1)
        = (chunkDocId r.id) ∘ Prod.fst := rfl
    rw [hcomp, ← List.map_map,
      List.map_fst_zip (List.range (cs.zip es).length) (cs.zip es)
        (le_of_eq (List.length_range _))]
  refine ⟨key chunks embeddings hlen, ?_⟩
  intro chunks2 embeddings2 h2 hsame
  rw [key chunks embeddings hlen, key chunks2 embeddings2 h2, hsame]

/-! ## Search Index operations and the Synchronization Pipeline

Modelled from the spec (sections 4.4 and 6): the notebook only
configures the external indexer — a `HighWaterMarkChangeDetectionPolicy`
on the `LastUpdated` column (cell 26), a
`SoftDeleteColumnDeletionDetectionPolicy` on the `Deleted` column with
marker value 1 (cells 12 and 26), and the skillset/indexer that drives
Chunker → Embedder → Index Projector → Search Index (cells 31 and 33).
The pipeline itself runs inside Azure AI Search, so it is modelled from
the spec's contract for `sync`. -/

/-- The search index state, as the list of stored chunk documents;
`upsert` replaces the document with the same key `Id` if one exists,
else appends. -/
def upsertDoc (idx : List ChunkDocument) (d : ChunkDocument) : List ChunkDocument :=
  if idx.any (fun x => x.id == d.id) then
    idx.map (fun x => if x.id = d.id then d else x)
  else idx ++ [d]

/-- Deleting every chunk document carrying a given parent identifier
(spec 4.4: "for each soft-deleted record: emit delete operations for all
ChunkDocuments with that parent identifier"). -/
def deleteParent (idx : List ChunkDocument) (pid : Nat) : List ChunkDocument :=
  idx.filter (fun d => d.parent_id != pid)

/-- The state threaded through a sync batch: the cursor (last-seen
change-marker value), the search index, and the upsert/delete counts the
spec's `sync` contract returns. -/
structure SyncState where
  cursor : Nat
  index : List ChunkDocument
  upserted : Nat
  deleted : Nat
deriving Repr, DecidableEq

/-- The chunk documents produced for one changed, non-deleted record:
run the Chunker on its `TextConcat`, the Embedder on each chunk, then
the Index Projector (spec 4.4).  A record whose text fails to chunk
contributes nothing. -/
def docsOfRecord (embedf : String → List ℚ) (L ov : Nat) (r : SourceRecord) :
    List ChunkDocument :=
  match chunk r.textConcat L ov with
  | .error _ => []
  | .ok cs => project r cs (cs.map embedf)

/-- Modelled from the spec (section 4.4): processing of one sync batch.
Records are attempted in order; `ok r` says whether every external
operation for `r` (embedding and upsert/delete, after retries) succeeds.
A successfully processed soft-deleted record deletes all its chunk
documents; a successfully processed live record upserts its projected
chunk documents; in both cases the cursor advances monotonically to the
record's change marker.  At the first failing record the batch stops:
the cursor is not advanced past it (at-least-once reprocessing). -/
def syncGo (ok : SourceRecord → Bool) (embedf : String → List ℚ) (L ov : Nat) :
    List SourceRecord → SyncState → SyncState
  | [], st => st
  | r :: rs, st =>
    if ok r then
      if r.deleted = softDeleteMarker then
        syncGo ok embedf L ov rs
          { cursor := max st.cursor r.lastUpdated
            index := deleteParent st.index r.id
            upserted := st.upserted
            deleted := st.deleted
              + (st.index.filter (fun d => d.parent_id == r.id)).length }
      else
        syncGo ok embedf L ov rs
          { cursor := max st.cursor r.lastUpdated
            index := (docsOfRecord embedf L ov r).foldl upsertDoc st.index
            upserted := st.upserted + (docsOfRecord embedf L ov r).length
            deleted := st.deleted }
    else st

/-- Modelled from the spec: `sync(cursor)` over an already-scanned batch
of changed/soft-deleted records, starting from cursor `cur0` and index
state `idx0`. -/
def sync (ok : SourceRecord → Bool) (embedf : String → List ℚ) (L ov : Nat)
    (batch : List SourceRecord) (cur0 : Nat) (idx0 : List ChunkDocument) :
    SyncState :=
  syncGo ok embedf L ov batch
    { cursor := cur0, index := idx0, upserted := 0, deleted := 0 }

theorem foldl_max_init_le (a : Nat) (l : List Nat) : a ≤ l.foldl max a := by
  induction l generalizing a with
  | nil => exact le_rfl
  | cons x xs ih => exact le_trans (Nat.le_max_left a x) (ih (max a x))

theorem foldl_max_mem_le (a : Nat) (l : List Nat) :
    ∀ x ∈ l, x ≤ l.foldl max a := by
  induction l generalizing a with
  | nil => intro x hx; cases hx
  | cons y ys ih =>
    intro x hx
    rcases List.mem_cons.mp hx with h | h
    · subst h
      exact le_trans (Nat.le_max_right a x) (foldl_max_init_le (max a x) ys)
    · exact ih (max a y) x h

theorem foldl_max_mem_or (a : Nat) (l : List Nat) :
    l.foldl max a = a ∨ l.foldl max a ∈ l := by
  induction l generalizing a with
  | nil => exact Or.inl rfl
  | cons x xs ih =>
    rcases ih (max a x) with h | h
    · simp only [List.foldl_cons] at *
      rcases Nat.le_total a x with hc | hc
      · right; rw [h, Nat.max_eq_right hc]; exact List.mem_cons_self _ _
      · left; rw [h, Nat.max_eq_left hc]
    · right
      simp only [List.foldl_cons]
      exact List.mem_cons_of_mem _ h

theorem syncGo_cursor (ok : SourceRecord → Bool) (embedf : String → List ℚ)
    (L ov : Nat) :
    ∀ (recs : List SourceRecord) (st : SyncState),
      (syncGo ok embedf L ov recs st).cursor
        = ((recs.takeWhile ok).map (fun r => r.lastUpdated)).foldl max st.cursor := by
  intro recs
  induction recs with
  | nil => intro st; rfl
  | cons r rs ih =>
    intro st
    by_cases hok : ok r
    · rw [List.takeWhile_cons_of_pos hok]
      by_cases hdel : r.deleted = softDeleteMarker
      · simp only [syncGo, if_pos hok, if_pos hdel]
        rw [ih]
        rfl
      · simp only [syncGo, if_pos hok, if_neg hdel]
        rw [ih]
        rfl
    · rw [List.takeWhile_cons_of_neg hok]
      simp only [syncGo, if_neg hok]
      rfl

/-- C1: the cursor returned by a sync batch.  The first conjunct is the
exact value: the monotone maximum of the initial cursor and the change
markers of the successfully processed records (the batch stops at the
first failing record, so the successfully processed records are
`batch.takeWhile ok`).  The remaining conjuncts restate the claim: when
every upsert/delete succeeds the cursor is the maximum change marker of
the whole batch; on a partial failure every successfully processed
record's marker is at most the cursor, no unprocessed marker is passed
beyond the processed ones, and (when anything was processed and the
batch is ahead of the old cursor, as the high-water-mark scan
guarantees) the cursor IS one of the processed records' markers — their
maximum. -/
theorem takeWhile_eq_self_of_all (ok : SourceRecord → Bool) :
    ∀ (l : List SourceRecord), (∀ r ∈ l, ok r = true) → l.takeWhile ok = l := by
  intro l
  induction l with
  | nil => intro _; rfl
  | cons r rs ih =>
    intro hall
    rw [List.takeWhile_cons_of_pos (hall r (List.mem_cons_self r rs))]
    rw [ih (fun x hx => hall x (List.mem_cons_of_mem r hx))]

theorem sync_cursor_spec (ok : SourceRecord → Bool) (embedf : String → List ℚ)
    (L ov : Nat) (batch : List SourceRecord) (cur0 : Nat)
    (idx0 : List ChunkDocument) :
    ((sync ok embedf L ov batch cur0 idx0).cursor
        = ((batch.takeWhile ok).map (fun r => r.lastUpdated)).foldl max cur0) ∧
    ((∀ r ∈ batch, ok r = true) →
      (sync ok embedf L ov batch cur0 idx0).cursor
        = (batch.map (fun r => r.lastUpdated)).foldl max cur0) ∧
    (∀ r ∈ batch.takeWhile ok,
      r.lastUpdated ≤ (sync ok embedf L ov batch cur0 idx0).cursor) ∧
    (batch.takeWhile ok ≠ [] →
      (∀ r ∈ batch.takeWhile ok, cur0 ≤ r.lastUpdated) →
      (sync ok embedf L ov batch cur0 idx0).cursor
        ∈ (batch.takeWhile ok).map (fun r => r.lastUpdated)) := by
  have hval := syncGo_cursor ok embedf L ov batch
    { cursor := cur0, index := idx0, upserted := 0, deleted := 0 }
  refine ⟨hval, ?_, ?_, ?_⟩
  · intro hall
    rw [sync, hval, takeWhile_eq_self_of_all ok batch hall]
  · intro r hr
    rw [sync, hval]
    exact foldl_max_mem_le cur0 _ r.lastUpdated (List.mem_map_of_mem _ hr)
  · intro hne hge
    rw [sync, hval]
    rcases foldl_max_mem_or cur0 ((batch.takeWhile ok).map (fun r => r.lastUpdated))
      with h | h
    · obtain ⟨r, hr⟩ := List.exists_mem_of_ne_nil _ hne
      have h1 : r.lastUpdated
          ≤ ((batch.takeWhile ok).map (fun r => r.lastUpdated)).foldl max cur0 :=
        foldl_max_mem_le cur0 _ r.lastUpdated (List.mem_map_of_mem _ hr)
      have h2 : cur0 ≤ r.lastUpdated := hge r hr
      rw [h] at h1 ⊢
      have : r.lastUpdated = cur0 := Nat.le_antisymm h1 h2
      rw [← this]
      exact List.mem_map_of_mem _ hr
    · exact h

theorem mem_upsertDoc {idx : List ChunkDocument} {d x : ChunkDocument}
    (hx : x ∈ upsertDoc idx d) : x ∈ idx ∨ x = d := by
  unfold upsertDoc at hx
  by_cases hc : idx.any (fun y => y.id == d.id)
  · rw [if_pos hc] at hx
    obtain ⟨y, hy, hxy⟩ := List.mem_map.mp hx
    by_cases hid : y.id = d.id
    · right; rw [← hxy, if_pos hid]
    · left; rw [← hxy, if_neg hid]; exact hy
  · rw [if_neg hc] at hx
    rcases List.mem_append.mp hx with h | h
    · exact Or.inl h
    · exact Or.inr (List.mem_singleton.mp h)

theorem mem_foldl_upsert {P : ChunkDocument → Prop} :
    ∀ (docs idx : List ChunkDocument), (∀ x ∈ idx, P x) → (∀ x ∈ docs, P x) →
      ∀ x ∈ docs.foldl upsertDoc idx, P x := by
  intro docs
  induction docs with
  | nil => intro idx hidx _ x hx; exact hidx x hx
  | cons d ds ih =>
    intro idx hidx hdocs x hx
    refine ih (upsertDoc idx d) ?_ (fun y hy => hdocs y (List.mem_cons_of_mem d hy)) x hx
    intro y hy
    rcases mem_upsertDoc hy with h | h
    · exact hidx y h
    · rw [h]; exact hdocs d (List.mem_cons_self d ds)

theorem mem_deleteParent {idx : List ChunkDocument} {pid : Nat} {d : ChunkDocument}
    (hd : d ∈ deleteParent idx pid) : d ∈ idx ∧ d.parent_id ≠ pid := by
  unfold deleteParent at hd
  have := List.mem_filter.mp hd
  refine ⟨this.1, ?_⟩
  have hb := this.2
  simpa [bne_iff_ne] using hb

theorem mem_docsOfRecord_parent {embedf : String → List ℚ} {L ov : Nat}
    {r : SourceRecord} {d : ChunkDocument}
    (hd : d ∈ docsOfRecord embedf L ov r) : d.parent_id = r.id := by
  unfold docsOfRecord at hd
  cases hc : chunk r.textConcat L ov with
  | error e => rw [hc] at hd; cases hd
  | ok cs =>
    rw [hc] at hd
    unfold project at hd
    obtain ⟨p, _, hp⟩ := List.mem_map.mp hd
    rw [← hp]

theorem mem_docsOfRecord_vector {embedf : String → List ℚ} {L ov : Nat}
    {r : SourceRecord} {d : ChunkDocument}
    (hembed : ∀ t, (embedf t).length = EMBEDDING_LENGTH)
    (hd : d ∈ docsOfRecord embedf L ov r) :
    d.vector.length = EMBEDDING_LENGTH := by
  unfold docsOfRecord at hd
  cases hc : chunk r.textConcat L ov with
  | error e => rw [hc] at hd; cases hd
  | ok cs =>
    rw [hc] at hd
    unfold project at hd
    obtain ⟨p, hpmem, hp⟩ := List.mem_map.mp hd
    have hvec : d.vector = p.2.2 := by rw [← hp]
    rw [List.enum_eq_zip_range] at hpmem
    have hpair : (p.1, p.2)
        ∈ (List.range (cs.zip (cs.map embedf)).length).zip (cs.zip (cs.map embedf)) := by
      simpa using hpmem
    have hsnd : p.2 ∈ cs.zip (cs.map embedf) := (List.of_mem_zip hpair).2
    have hpair2 : (p.2.1, p.2.2) ∈ cs.zip (cs.map embedf) := by
      simpa using hsnd
    have h22 : p.2.2 ∈ cs.map embedf := (List.of_mem_zip hpair2).2
    obtain ⟨t, _, ht⟩ := List.mem_map.mp h22
    rw [hvec, ← ht]
    exact hembed t

theorem syncGo_index_forall (ok : SourceRecord → Bool)
    (embedf : String → List ℚ) (L ov : Nat) (P : ChunkDocument → Prop) :
    ∀ (recs : List SourceRecord) (st : SyncState),
      (∀ r ∈ recs, r.deleted ≠ softDeleteMarker →
        ∀ d ∈ docsOfRecord embedf L ov r, P d) →
      (∀ d ∈ st.index, P d) →
      ∀ d ∈ (syncGo ok embedf L ov recs st).index, P d := by
  intro recs
  induction recs with
  | nil => intro st _ hst d hd; exact hst d hd
  | cons r rs ih =>
    intro st hrecs hst d hd
    by_cases hok : ok r
    · by_cases hdel : r.deleted = softDeleteMarker
      · simp only [syncGo, if_pos hok, if_pos hdel] at hd
        refine ih _ (fun x hx => hrecs x (List.mem_cons_of_mem r hx)) ?_ d hd
        intro x hx
        exact hst x (mem_deleteParent hx).1
      · simp only [syncGo, if_pos hok, if_neg hdel] at hd
        refine ih _ (fun x hx => hrecs x (List.mem_cons_of_mem r hx)) ?_ d hd
        intro x hx
        exact mem_foldl_upsert _ st.index hst
          (fun y hy => hrecs r (List.mem_cons_self r rs) hdel y hy) x hx
    · simp only [syncGo, if_neg hok] at hd
      exact hst d hd

theorem syncGo_soft_delete (ok : SourceRecord → Bool) (embedf : String → List ℚ)
    (L ov : Nat) (r : SourceRecord) (hdel : r.deleted = softDeleteMarker) :
    ∀ (recs : List SourceRecord) (st : SyncState),
      (∀ r' ∈ recs, ok r' = true) → r ∈ recs →
      (∀ r' ∈ recs, r'.id = r.id → r'.deleted = softDeleteMarker) →
      ∀ d ∈ (syncGo ok embedf L ov recs st).index, d.parent_id ≠ r.id := by
  intro recs
  induction recs with
  | nil => intro st _ hr; cases hr
  | cons r2 rs ih =>
    intro st hok hr huniq d hd
    have hok2 : ok r2 = true := hok r2 (List.mem_cons_self r2 rs)
    by_cases hid : r2.id = r.id
    · have hdel2 : r2.deleted = softDeleteMarker :=
        huniq r2 (List.mem_cons_self r2 rs) hid
      simp only [syncGo, if_pos hok2, if_pos hdel2] at hd
      refine syncGo_index_forall ok embedf L ov (fun x => x.parent_id ≠ r.id)
        rs _ ?_ ?_ d hd
      · intro x hx hxdel y hy
        have hxid : x.id ≠ r.id := by
          intro hcon
          exact hxdel (huniq x (List.mem_cons_of_mem r2 hx) hcon)
        rw [mem_docsOfRecord_parent hy]
        exact hxid
      · intro x hx
        have := mem_deleteParent hx
        rw [hid] at this
        exact this.2
    · have hrrs : r ∈ rs := by
        rcases List.mem_cons.mp hr with h | h
        · exact absurd (congrArg SourceRecord.id h.symm) hid
        · exact h
      by_cases hdel2 : r2.deleted = softDeleteMarker
      · simp only [syncGo, if_pos hok2, if_pos hdel2] at hd
        exact ih _ (fun x hx => hok x (List.mem_cons_of_mem r2 hx)) hrrs
          (fun x hx => huniq x (List.mem_cons_of_mem r2 hx)) d hd
      · simp only [syncGo, if_pos hok2, if_neg hdel2] at hd
        exact ih _ (fun x hx => hok x (List.mem_cons_of_mem r2 hx)) hrrs
          (fun x hx => huniq x (List.mem_cons_of_mem r2 hx)) d hd

/-- C4: for every source record whose soft-delete flag is set, a sync
batch that completes successfully (every record's operations succeed)
leaves no chunk document with that record's identifier as parent in the
search index.  The record-id hypothesis reflects the table's primary
key: no other record of the batch re-uses the deleted record's
identifier without itself being soft-deleted. -/
theorem sync_soft_delete_removes (ok : SourceRecord → Bool)
    (embedf : String → List ℚ) (L ov : Nat) (batch : List SourceRecord)
    (cur0 : Nat) (idx0 : List ChunkDocument) (r : SourceRecord)
    (hok : ∀ r' ∈ batch, ok r' = true)
    (hr : r ∈ batch)
    (hdel : r.deleted = softDeleteMarker)
    (huniq : ∀ r' ∈ batch, r'.id = r.id → r'.deleted = softDeleteMarker) :
    ∀ d ∈ (sync ok embedf L ov batch cur0 idx0).index, d.parent_id ≠ r.id :=
  syncGo_soft_delete ok embedf L ov r hdel batch
    { cursor := cur0, index := idx0, upserted := 0, deleted := 0 }
    hok hr huniq

/-- C5: every chunk document in the search index carries an embedding
vector of the index's configured dimensionality `EMBEDDING_LENGTH`
(1536, cells 5 and 29 of the notebook): provided the embedder returns
vectors of that dimensionality (the spec's fixed-length-`D` contract for
`embed`) and the invariant holds of the initial index, it holds of the
index after any sync batch — every operation that inserts or updates
chunk documents preserves it. -/
theorem sync_embedding_dimension (ok : SourceRecord → Bool)
    (embedf : String → List ℚ) (L ov : Nat) (batch : List SourceRecord)
    (cur0 : Nat) (idx0 : List ChunkDocument)
    (hembed : ∀ t, (embedf t).length = EMBEDDING_LENGTH)
    (hidx0 : ∀ d ∈ idx0, d.vector.length = EMBEDDING_LENGTH) :
    ∀ d ∈ (sync ok embedf L ov batch cur0 idx0).index,
      d.vector.length = EMBEDDING_LENGTH :=
  syncGo_index_forall ok embedf L ov (fun d => d.vector.length = EMBEDDING_LENGTH)
    batch { cursor := cur0, index := idx0, upserted := 0, deleted := 0 }
    (fun _ _ _ d hd => mem_docsOfRecord_vector hembed hd) hidx0

/-! ## Answer Generator

Modelled from the spec (section 4.5): the notebook issues the hybrid
semantic query through `search_client.search` (cell 40, `top=5`) and the
grounded completion through `client.chat.completions.create` (cell 45);
ranking and generation run inside the external services.  The combined
score and re-ranker score of a stored document are modelled by a scoring
oracle, and the completion service by a fallible oracle. -/

/-- A retrieved document with its relevance score (`@search.score`) and
semantic re-ranker score (`@search.reranker_score`), as printed in cell
40 of the notebook. -/
structure ScoredDoc where
  doc : ChunkDocument
  score : ℚ
  rerankerScore : ℚ
deriving Repr, DecidableEq

/-- The ranking key of a retrieved document: descending combined score,
ties broken by descending re-ranker score, then by ascending chunk
identifier (spec 4.5's determinism requirement), encoded as a
lexicographic triple. -/
def rankKey (a : ScoredDoc) : Lex (ℚ × Lex (ℚ × String)) :=
  toLex (-a.score, toLex (-a.rerankerScore, a.doc.id))

/-- `rankLE a b`: document `a` is ranked at or before document `b`. -/
def rankLE (a b : ScoredDoc) : Prop :=
  rankKey a ≤ rankKey b

instance rankLE_decidable : DecidableRel rankLE :=
  fun a b => inferInstanceAs (Decidable (rankKey a ≤ rankKey b))

instance rankLE_isTrans : IsTrans ScoredDoc rankLE :=
  ⟨fun _ _ _ h1 h2 => le_trans h1 h2⟩

instance rankLE_isTotal : IsTotal ScoredDoc rankLE :=
  ⟨fun a b => le_total (rankKey a) (rankKey b)⟩

/-- Modelled from the spec (section 4.5): retrieval of the top-`topK`
documents of the index, ordered by descending combined score with
deterministic tie-breaking. -/
def retrieve (index : List ChunkDocument) (scoref : ChunkDocument → ℚ × ℚ)
    (topK : Nat) : List ScoredDoc :=
  ((index.map (fun d => ScoredDoc.mk d (scoref d).1 (scoref d).2)).insertionSort
    rankLE).take topK

/-- Errors of the Answer Generator (spec 4.5 and section 7): an empty
retrieval yields `NoResultsError`; a completion-service failure is
surfaced as `GenerationFailed`, distinct from retrieval failure. -/
inductive AnswerError where
  | NoResultsError
  | GenerationFailed
deriving Repr, DecidableEq

/-- A query result (spec section 3): the ranked retrieved documents plus
the generated answer text. -/
structure QueryResult where
  results : List ScoredDoc
  answerText : String
deriving Repr, DecidableEq

/-- The separator between grounding chunks. -/
def chunkSeparator : String := "\n"

/-- The grounding context handed to the completion service: the
retrieved chunks' text. -/
def buildContext (docs : List ScoredDoc) : String :=
  String.intercalate chunkSeparator (docs.map (fun s => s.doc.chunk))

/-- Modelled from the spec (section 4.5): `answer(query, topK)`.
Retrieves the ranked top-`topK` documents; an empty result set is a
`NoResultsError`; otherwise the external completion service (oracle
`completef`, cell 45 of the notebook) is invoked on the query and the
grounding context, its failure surfacing as `GenerationFailed` and its
success as the final `QueryResult`. -/
def answer (index : List ChunkDocument) (scoref : ChunkDocument → ℚ × ℚ)
    (completef : String → String → Except Unit String) (query : String)
    (topK : Nat) : Except AnswerError QueryResult :=
  if retrieve index scoref topK = [] then .error .NoResultsError
  else
    match completef query (buildContext (retrieve index scoref topK)) with
    | .error _ => .error .GenerationFailed
    | .ok text => .ok { results := retrieve index scoref topK, answerText := text }

/-- C7: for every index state, scoring oracle, and `topK`, retrieval
returns at most `topK` documents, every returned document comes from the
index, the returned sequence is sorted by `rankLE`, and `rankLE` is
exactly the claimed order: descending combined score, ties broken first
by descending re-ranker score and then by ascending chunk identifier —
a total order, so the returned ordering is deterministic for a fixed
index state and query. -/
theorem answer_ranking (index : List ChunkDocument)
    (scoref : ChunkDocument → ℚ × ℚ) (topK : Nat) :
    ((retrieve index scoref topK).length ≤ topK) ∧
    List.Sorted rankLE (retrieve index scoref topK) ∧
    (∀ s ∈ retrieve index scoref topK, s.doc ∈ index) ∧
    (∀ a b : ScoredDoc, rankLE a b ↔
      (b.score < a.score ∨ (a.score = b.score ∧
        (b.rerankerScore < a.rerankerScore ∨
          (a.rerankerScore = b.rerankerScore ∧ a.doc.id ≤ b.doc.id))))) := by
  refine ⟨?_, ?_, ?_, ?_⟩
  · rw [retrieve, List.length_take]
    exact Nat.min_le_left _ _
  · exact List.Pairwise.sublist (List.take_sublist _ _)
      (List.sorted_insertionSort rankLE _)
  · intro s hs
    have h1 : s ∈ (index.map
        (fun d => ScoredDoc.mk d (scoref d).1 (scoref d).2)).insertionSort rankLE :=
      List.mem_of_mem_take hs
    have h2 := (List.mem_insertionSort rankLE).mp h1
    obtain ⟨d, hd, hds⟩ := List.mem_map.mp h2
    rw [← hds]
    exact hd
  · intro a b
    unfold rankLE rankKey
    rw [Prod.Lex.le_iff, Prod.Lex.le_iff]
    simp only [neg_lt_neg_iff, neg_inj]

/-- C8: the Answer Generator raises `NoResultsError` exactly when
retrieval is empty; with a nonempty retrieval, it raises
`GenerationFailed` exactly when the completion service fails; and it
returns a result exactly when retrieval is nonempty and the completion
succeeds — the two failures are distinct constructors, never conflated,
and every failure is surfaced to the caller. -/
theorem answer_error_taxonomy (index : List ChunkDocument)
    (scoref : ChunkDocument → ℚ × ℚ)
    (completef : String → String → Except Unit String) (query : String)
    (topK : Nat) :
    (answer index scoref completef query topK = .error .NoResultsError ↔
      retrieve index scoref topK = []) ∧
    (retrieve index scoref topK ≠ [] →
      (answer index scoref completef query topK = .error .GenerationFailed ↔
        ∃ e, completef query (buildContext (retrieve index scoref topK))
          = .error e)) ∧
    (∀ qr : QueryResult, answer index scoref completef query topK = .ok qr ↔
      (retrieve index scoref topK ≠ [] ∧ qr.results = retrieve index scoref topK ∧
        completef query (buildContext (retrieve index scoref topK))
          = .ok qr.answerText)) := by
  by_cases hempty : retrieve index scoref topK = []
  · refine ⟨⟨fun _ => hempty, fun _ => by simp [answer, if_pos hempty]⟩, ?_, ?_⟩
    · intro hne; exact absurd hempty hne
    · intro qr
      constructor
      · intro h
        simp [answer, if_pos hempty] at h
      · intro h
        exact absurd hempty h.1
  · cases hc : completef query (buildContext (retrieve index scoref topK)) with
    | error e =>
      have hA : answer index scoref completef query topK
          = Except.error AnswerError.GenerationFailed := by
        simp [answer, if_neg hempty, hc]
      refine ⟨?_, ?_, ?_⟩
      · rw [hA]
        constructor
        · intro h; exact absurd h (by simp)
        · intro h; exact absurd h hempty
      · intro _
        rw [hA]
        constructor
        · intro _; exact ⟨e, rfl⟩
        · intro _; rfl
      · intro qr
        rw [hA]
        constructor
        · intro h; exact absurd h (by simp)
        · intro h; exact absurd h.2.2 (by simp)
    | ok text =>
      have hA : answer index scoref completef query topK
          = Except.ok { results := retrieve index scoref topK, answerText := text } := by
        simp [answer, if_neg hempty, hc]
      refine ⟨?_, ?_, ?_⟩
      · rw [hA]
        constructor
        · intro h; exact absurd h (by simp)
        · intro h; exact absurd h hempty
      · intro _
        rw [hA]
        constructor
        · intro h; exact absurd h (by simp)
        · intro h
          obtain ⟨e, he⟩ := h
          exact absurd he (by simp)
      · intro qr
        rw [hA]
        constructor
        · intro h
          have h2 : ({ results := retrieve index scoref topK, answerText := text }
              : QueryResult) = qr := Except.ok.inj h
          rw [← h2]
          exact ⟨hempty, rfl, rfl⟩
        · intro h
          cases qr with
          | mk results2 answerText2 =>
            simp only at h
            have h3 : text = answerText2 := Except.ok.inj h.2.2
            rw [h.2.1, h3]

/-- C9: a source-record identifier never changes after creation, and any
mutation of the record's fields performed at a later instant strictly
increases the last-modified timestamp (the table stamps `LastUpdated`
with the update time — `ON UPDATE CURRENT_TIMESTAMP`, cell 12 of the
notebook — and the store's clock has advanced past the stored value). -/
theorem updateRecord_invariants (r : SourceRecord)
    (f : SourceRecord → SourceRecord) (now : Nat)
    (hclock : r.lastUpdated < now) :
    (updateRecord r f now).id = r.id ∧
    (updateRecord r f now).created = r.created ∧
    r.lastUpdated < (updateRecord r f now).lastUpdated :=
  ⟨rfl, rfl, hclock⟩

/-- C10: the Ingestion Loader derives the concatenated-text field of an
ingested row as exactly `"Summary: " + Summary + " | Review: " + Text`
(cell 17 of the notebook), so only `Summary` and `Text` contribute, and
two rows with equal `Summary` and `Text` always get equal concatenated
text. -/
theorem loadRow_textConcat (row : RawRow) (now : Nat) :
    ((loadRow row now).textConcat
      = "Summary: " ++ row.summary ++ " | Review: " ++ row.text) ∧
    (∀ (row2 : RawRow) (now2 : Nat), row2.summary = row.summary →
      row2.text = row.text →
      (loadRow row2 now2).textConcat = (loadRow row now).textConcat) := by
  refine ⟨rfl, ?_⟩
  intro row2 now2 hs ht
  simp [loadRow, textConcatOf, hs, ht]

/-! ## Concrete witnesses -/

/-- A concrete sample text. -/
def sampleText : String := "abcdefgh"

/-- A concrete sample review text. -/
def tinyText : String := "x"

/-- A concrete sample user query. -/
def sampleQuery : String := "Cat food"

/-- A concrete source record for witnesses. -/
def sampleRecord (i lu del : Nat) (txt : String) : SourceRecord :=
  { id := i, productId := "B001", userId := "u1", profileName := "p1",
    helpfulnessNumerator := 1, helpfulnessDenominator := 2, score := 5,
    time := 0, summary := "Great!", text := txt, textConcat := txt,
    created := 0, lastUpdated := lu, deleted := del }

/-- A concrete raw CSV row for witnesses. -/
def sampleRow : RawRow :=
  { id := 1, productId := "B001", userId := "u1", profileName := "p1",
    helpfulnessNumerator := 1, helpfulnessDenominator := 2, score := 5,
    time := 0, summary := "Great!", text := "My cat loved it." }

/-- A concrete stored chunk document for witnesses. -/
def sampleDoc (pid : Nat) : ChunkDocument :=
  { id := "7_0", chunk := "chunk text", vector := [], parent_id := pid,
    parent_product_id := "B001", parent_text := "t", parent_summary := "s",
    parent_score := 5 }

/-- Witness for C2 at `T = "abcdefgh"`, `maxLength = 5`, `overlap = 2`. -/
theorem chunk_roundTrip_witness :
    ∃ cs, chunk sampleText 5 2 = Except.ok cs ∧ joinChunks 2 cs = sampleText :=
  chunk_roundTrip sampleText 5 2 (by decide) (by decide)

/-- Witness for C6: `overlap = 5 ≥ maxLength = 2` is rejected. -/
theorem chunk_invalid_parameter_witness :
    chunk sampleText 2 5 = Except.error ChunkError.InvalidParameter :=
  (chunk_invalid_parameter sampleText 2 5).1.mpr (by decide)

/-- Witness for C3 on a concrete record with two chunks. -/
theorem project_idempotent_ids_witness :
    (project (sampleRecord 7 3 0 tinyText) [sampleText, tinyText]
        [[], []]).map (fun d => d.id)
      = (List.range ([sampleText, tinyText] : List String).length).map
          (chunkDocId (sampleRecord 7 3 0 tinyText).id) :=
  (project_idempotent_ids (sampleRecord 7 3 0 tinyText) [sampleText, tinyText]
    [[], []] rfl).1

/-- Witness for C1: a two-record batch whose second record (change
marker 9) fails leaves the cursor at the first record's marker 3. -/
theorem sync_cursor_spec_witness :
    (sync (fun r => r.lastUpdated != 9) (fun _ => []) 5 1
      [sampleRecord 1 3 0 tinyText, sampleRecord 2 9 0 tinyText] 0 []).cursor
      = 3 := by
  have h := (sync_cursor_spec (fun r => r.lastUpdated != 9) (fun _ => []) 5 1
    [sampleRecord 1 3 0 tinyText, sampleRecord 2 9 0 tinyText] 0 []).1
  rw [h]
  decide

/-- Witness for C4: syncing a batch holding one soft-deleted record
with identifier 7 removes the pre-existing chunk document of parent 7. -/
theorem sync_soft_delete_removes_witness :
    ((sync (fun _ => true) (fun _ => []) 5 1 [sampleRecord 7 3 1 tinyText] 0
      [sampleDoc 7]).index.all (fun d => d.parent_id != 7)) = true := by
  have h := sync_soft_delete_removes (fun _ => true) (fun _ => []) 5 1
    [sampleRecord 7 3 1 tinyText] 0 [sampleDoc 7] (sampleRecord 7 3 1 tinyText)
    (fun r _ => rfl) (List.mem_singleton.mpr rfl) rfl
    (by intro r hr _; rw [List.mem_singleton.mp hr]; rfl)
  rw [List.all_eq_true]
  intro d hd
  exact bne_iff_ne.mpr (h d hd)

/-- Witness for C5: after syncing one record with a 1536-dimensional
embedder, every stored document's vector has dimensionality 1536. -/
theorem sync_embedding_dimension_witness :
    ((sync (fun _ => true) (fun _ => List.replicate EMBEDDING_LENGTH 0) 5 1
      [sampleRecord 7 3 0 tinyText] 0 []).index.all
        (fun d => d.vector.length == EMBEDDING_LENGTH)) = true := by
  have h := sync_embedding_dimension (fun _ => true)
    (fun _ => List.replicate EMBEDDING_LENGTH 0) 5 1 [sampleRecord 7 3 0 tinyText]
    0 [] (fun _ => List.length_replicate _ _)
    (fun d hd => absurd hd (List.not_mem_nil d))
  rw [List.all_eq_true]
  intro d hd
  exact beq_iff_eq.mpr (h d hd)

/-- Witness for C7 with `topK = 3` over a one-document index. -/
theorem answer_ranking_witness :
    (retrieve [sampleDoc 7] (fun _ => (1, 1)) 3).length ≤ 3 :=
  (answer_ranking [sampleDoc 7] (fun _ => (1, 1)) 3).1

/-- Witness for C8: an empty index yields `NoResultsError`. -/
theorem answer_error_taxonomy_witness :
    answer [] (fun _ => (1, 1)) (fun _ _ => Except.ok sampleQuery) sampleQuery 3
      = Except.error AnswerError.NoResultsError :=
  (answer_error_taxonomy [] (fun _ => (1, 1)) (fun _ _ => Except.ok sampleQuery)
    sampleQuery 3).1.mpr rfl

/-- Witness for C9: mutating the summary of a record last updated at 3,
at instant 9, keeps the identifier and strictly increases the
timestamp. -/
theorem updateRecord_invariants_witness :
    (updateRecord (sampleRecord 1 3 0 tinyText)
        (fun s => { s with summary := sampleText }) 9).id
      = (sampleRecord 1 3 0 tinyText).id ∧
    (updateRecord (sampleRecord 1 3 0 tinyText)
        (fun s => { s with summary := sampleText }) 9).created
      = (sampleRecord 1 3 0 tinyText).created ∧
    (sampleRecord 1 3 0 tinyText).lastUpdated
      < (updateRecord (sampleRecord 1 3 0 tinyText)
          (fun s => { s with summary := sampleText }) 9).lastUpdated :=
  updateRecord_invariants (sampleRecord 1 3 0 tinyText)
    (fun s => { s with summary := sampleText }) 9 (by decide)

/-- Witness for C10 on a concrete CSV row. -/
theorem loadRow_textConcat_witness :
    (loadRow sampleRow 3).textConcat
      = "Summary: " ++ sampleRow.summary ++ " | Review: " ++ sampleRow.text :=
  (loadRow_textConcat sampleRow 3).1
